import Mathlib

/-!
Verification of cargo-local-registry against its specification.

The definitions below are shallow embeddings of the functions in
`src/parsing.rs`, `src/crates.rs`, `src/index.rs`, `src/main.rs` and
`src/lib.rs`.  Strings are modelled as Lean `String`/`List Char`;
filesystem state is passed explicitly; HTTP handlers become pure
functions from their inputs (request, state, upstream responses) to a
result plus a trace of effects.
-/

/-- Lexicographic comparison of character lists, matching Rust's `str`
ordering on ASCII data (byte order and scalar-value order agree there). -/
def leListChar : List Char → List Char → Bool
  | [], _ => true
  | _ :: _, [] => false
  | a :: as, b :: bs => if a < b then true else if a = b then leListChar as bs else false

/-- Decimal digit test, as used by the semver grammar. -/
def isDigitC (c : Char) : Bool := '0' ≤ c && c ≤ '9'

/-- Characters allowed in semver prerelease/build identifiers:
ASCII alphanumerics and the hyphen. -/
def isIdentC (c : Char) : Bool := c.isAlphanum || c = '-'

/-- Numeric value of a digit string. -/
def digitsToNat (cs : List Char) : Nat :=
  cs.foldl (fun acc c => 10 * acc + (c.toNat - 48)) 0

/-- Validity of a semver numeric identifier (major/minor/patch): nonempty,
all digits, no leading zero unless the identifier is exactly "0", and the
value fits in a `u64` (the `semver` crate stores these as `u64` and fails
on overflow). -/
def numericOk (cs : List Char) : Bool :=
  !cs.isEmpty && cs.all isDigitC &&
    (cs.length == 1 || cs.headD ' ' != '0') &&
    digitsToNat cs < 18446744073709551616

/-- Expect a leading `'.'` and return the remainder. -/
def expectDot : List Char → Option (List Char)
  | c :: r => if c = '.' then some r else none
  | [] => none

/-- Split a character list at the first `'+'`, returning the part before it
and, when a `'+'` is present, the part after it. -/
def splitAtPlus : List Char → List Char × Option (List Char)
  | [] => ([], none)
  | c :: rest =>
    if c = '+' then ([], some rest)
    else
      let p := splitAtPlus rest
      (c :: p.1, p.2)

/-- Split a character list on `'.'` into identifiers (no piece is dropped;
an empty piece witnesses an empty identifier, which is invalid). -/
def splitOnDot : List Char → List (List Char)
  | [] => [[]]
  | c :: rest =>
    if c = '.' then [] :: splitOnDot rest
    else
      match splitOnDot rest with
      | h :: t => (c :: h) :: t
      | [] => [[c]]

/-- Validity of one semver prerelease identifier: nonempty, identifier
characters only, and no leading zero when the identifier is all digits. -/
def preIdOk (cs : List Char) : Bool :=
  !cs.isEmpty && cs.all isIdentC &&
    (!cs.all isDigitC || cs.length == 1 || cs.headD ' ' != '0')

/-- Validity of one semver build-metadata identifier: nonempty and
identifier characters only (leading zeros are allowed here). -/
def buildIdOk (cs : List Char) : Bool :=
  !cs.isEmpty && cs.all isIdentC

/-- Validity of a full prerelease section (dot-separated identifiers). -/
def preValid (cs : List Char) : Bool :=
  (splitOnDot cs).all preIdOk

/-- Validity of a full build-metadata section (dot-separated identifiers). -/
def buildValid (cs : List Char) : Bool :=
  (splitOnDot cs).all buildIdOk

/-- Validity of the part of a semver string after `MAJOR.MINOR.PATCH`:
empty, or `-prerelease` optionally followed by `+build`, or `+build`. -/
def semverTail : List Char → Bool
  | [] => true
  | c :: rest =>
    if c = '-' then
      let p := splitAtPlus rest
      preValid p.1 &&
        (match p.2 with
         | none => true
         | some b => buildValid b)
    else if c = '+' then buildValid rest
    else false

/-- Model of `semver::Version::parse(s).is_ok()`:
`MAJOR.MINOR.PATCH` with valid numeric identifiers, then an optional
prerelease and optional build-metadata section.  The numeric components
are read as maximal digit runs (`takeWhile`/`dropWhile`), as the `semver`
crate's parser does. -/
def semverValidL (cs : List Char) : Bool :=
  numericOk (cs.takeWhile isDigitC) &&
    (match expectDot (cs.dropWhile isDigitC) with
     | none => false
     | some r2 =>
       numericOk (r2.takeWhile isDigitC) &&
         (match expectDot (r2.dropWhile isDigitC) with
          | none => false
          | some r4 =>
            numericOk (r4.takeWhile isDigitC) && semverTail (r4.dropWhile isDigitC)))

/-- Strip an exact suffix from a character list, returning the prefix when
the suffix matches (model of `str::strip_suffix`). -/
def stripSuffixL (cs suf : List Char) : Option (List Char) :=
  if suf.isSuffixOf cs then some (cs.take (cs.length - suf.length)) else none

/-- Scan the remaining characters left to right.  At each `'-'`, the text
after it is a candidate version and the text before it (accumulated in
`before`) a candidate name; the first position whose candidate version is
a valid semver version and whose candidate name is nonempty wins.  This is
the loop over `stripped.match_indices('-')` in `parse_crate_filename`
(src/parsing.rs lines 18-27). -/
def scanSplit : List Char → List Char → Option (List Char × List Char)
  | _, [] => none
  | before, c :: rest =>
    if c = '-' then
      if semverValidL rest && !before.isEmpty then some (before, rest)
      else scanSplit (before ++ [c]) rest
    else scanSplit (before ++ [c]) rest

/-- Model of `parse_crate_filename` (src/parsing.rs lines 14-30): strip an
exact `.crate` suffix, then try each dash position left to right, accepting
the first whose suffix is a valid semver version and whose prefix is
nonempty. -/
def parse_crate_filename (s : String) : Option (String × String) :=
  match stripSuffixL s.data ".crate".data with
  | none => none
  | some stripped =>
    match scanSplit [] stripped with
    | none => none
    | some p => some (String.mk p.1, String.mk p.2)

/-- Rightmost-dash split of a character list, the model of
`stripped.rfind('-')` followed by slicing (src/crates.rs lines 16-19). -/
def rsplitDash : List Char → Option (List Char × List Char)
  | [] => none
  | c :: rest =>
    match rsplitDash rest with
    | some p => some (c :: p.1, p.2)
    | none => if c = '-' then some ([], rest) else none

/-- Model of `remove_prior_versions` (src/crates.rs lines 6-35): from the
directory listing of `R`, remove every file that ends in `.crate` and whose
rightmost-dash split has prefix equal to `crate_name` and suffix different
from `keep_version`.  The returned list is the set of removed files. -/
def remove_prior_versions (entries : List String) (crate_name keep_version : String) :
    List String :=
  entries.filter fun f =>
    match stripSuffixL f.data ".crate".data with
    | none => false
    | some stripped =>
      match rsplitDash stripped with
      | none => false
      | some p => p.1 == crate_name.data && p.2 != keep_version.data

/-- Model of `get_index_path` (src/index.rs lines 10-25), with paths as
segment lists.  The `_` arm slices the first four characters, which in Rust
panics for the (unreachable through callers) empty name; the model returns
`none` there. -/
def get_index_path (registry_path : List String) (crate_name : String) :
    Option (List String) :=
  match crate_name.length with
  | 1 => some (registry_path ++ ["index", "1", crate_name])
  | 2 => some (registry_path ++ ["index", "2", crate_name])
  | 3 => some (registry_path ++ ["index", "3", String.mk (crate_name.data.take 1), crate_name])
  | _ =>
    if 4 ≤ crate_name.length then
      some (registry_path ++ ["index", String.mk (crate_name.data.take 2),
        String.mk ((crate_name.data.drop 2).take 2), crate_name])
    else none

/-- Model of the sync engine's `get_index_path` (src/main.rs lines 835-844):
identical sharding, but the name is lowercased first (`to_lowercase`,
modelled per character) and the registry root comes second. -/
def get_index_path_main (crate_name : String) (local_dst : List String) :
    Option (List String) :=
  let name := String.mk (crate_name.data.map Char.toLower)
  match name.length with
  | 1 => some (local_dst ++ ["index", "1", name])
  | 2 => some (local_dst ++ ["index", "2", name])
  | 3 => some (local_dst ++ ["index", "3", String.mk (name.data.take 1), name])
  | _ =>
    if 4 ≤ name.length then
      some (local_dst ++ ["index", String.mk (name.data.take 2),
        String.mk ((name.data.drop 2).take 2), name])
    else none

/-- Insertion of an element into a list sorted by the boolean relation
`le`, placing it before the first element it compares `le` to (this makes
the sort below stable, like Rust's `sort`). -/
def insertByLe {α : Type} (le : α → α → Bool) (x : α) : List α → List α
  | [] => [x]
  | y :: ys => if le x y then x :: y :: ys else y :: insertByLe le x ys

/-- Stable insertion sort by a boolean relation; models `Vec::sort` for the
total orders used in this program. -/
def sortByLe {α : Type} (le : α → α → Bool) : List α → List α
  | [] => []
  | x :: xs => insertByLe le x (sortByLe le xs)

/-- One line of an index file as the sync engine sees it: the serialized
JSON record together with its `vers` field (the code recovers `vers` by
deserializing the line). -/
structure IndexLine where
  s : String
  vers : String
deriving DecidableEq

/-- Order on index lines: lexicographic over the serialized line, as used
by `prev_entries.sort()` in `update_index_entry`. -/
def lineLe (a b : IndexLine) : Bool := leListChar a.s.data b.s.data

/-- Model of `update_index_entry` (src/main.rs lines 846-873): take the
previous lines (empty when `keep_old_versions` is false), drop those whose
`vers` equals the incoming version, append the new line, and sort
lexicographically over the serialized form. -/
def update_index_entry (prev : List IndexLine) (line : IndexLine) (version : String) :
    List IndexLine :=
  sortByLe lineLe ((prev.filter fun e => e.vers != version) ++ [line])

/-- The metadata tuple produced by sync phase P1 for one package
(src/main.rs lines 573-578): archive destination, index destination,
serialized record, version. -/
structure PkgMeta where
  crate_dst : String
  index_dst : String
  line : IndexLine
  version : String

/-- State threaded through sync phase P3: the index files on disk and the
set (as a list) of index paths already written in this run. -/
structure P3State where
  fs : String → List IndexLine
  added_index : List String

/-- One iteration of the P3 loop (src/main.rs lines 612-620): compute
`keep_old`, update the index file, then record the index path as added. -/
def p3Step (no_delete : Bool) (st : P3State) (m : PkgMeta) : P3State :=
  let keep_old := no_delete || st.added_index.contains m.index_dst
  let prev := if keep_old then st.fs m.index_dst else []
  { fs := fun p => if p = m.index_dst then update_index_entry prev m.line m.version else st.fs p
    added_index := m.index_dst :: st.added_index }

/-- Sync phase P3: fold the P3 loop over the package metadata in P1 order. -/
def p3Run (no_delete : Bool) (metas : List PkgMeta) (st : P3State) : P3State :=
  metas.foldl (p3Step no_delete) st

/-- Split a character list on a separator character. -/
def splitOnChar (sep : Char) : List Char → List (List Char)
  | [] => [[]]
  | c :: rest =>
    if c = sep then [] :: splitOnChar sep rest
    else
      match splitOnChar sep rest with
      | h :: t => (c :: h) :: t
      | [] => [[c]]

/-- Lines of a file's contents, in the sense of Rust's `str::lines`: split
on newlines, with a trailing newline producing no extra empty line. -/
def linesOf (cs : List Char) : List (List Char) :=
  let ps := splitOnChar '\n' cs
  if ps.getLast? = some [] then ps.dropLast else ps

/-- Adjacent sortedness of a list of lines under lexicographic order. -/
def sortedLinesB : List (List Char) → Bool
  | [] => true
  | [_] => true
  | a :: b :: r => leListChar a b && sortedLinesB (b :: r)

/-- Substring test (model of `str::contains`): the needle is a prefix of
some tail of the haystack. -/
def containsSub : List Char → List Char → Bool
  | [], needle => needle.isEmpty
  | c :: t, needle => needle.isPrefixOf (c :: t) || containsSub t needle

/-- One line of the upstream index response as seen by the serve-side
cacher: its text plus the `vers` its JSON parse yields (`none` when the
line does not parse or has no string `vers`). -/
structure UpLine where
  text : String
  vers : Option String
deriving DecidableEq

/-- Model of `cache_specific_index_version` (src/lib.rs lines 457-529).
`upstream` is the fetched index body split into lines (`none` = fetch
failed), `existing` the current local index file (`none` = absent).  The
result is the content written to the index file, or `none` when nothing is
written: the code finds the first upstream line whose `vers` equals
`version`; with `clean` it writes that line alone, otherwise it appends the
line to the existing content unless a `"vers":"<version>"` substring is
already present. -/
def cache_specific_index_version (upstream : Option (List UpLine))
    (existing : Option String) (version : String) (clean : Bool) : Option String :=
  match upstream with
  | none => none
  | some ls =>
    match ls.find? (fun l => l.vers == some version) with
    | none => none
    | some l =>
      if clean then some (l.text ++ "\n")
      else
        let base := existing.getD ""
        if containsSub base.data ("\"vers\":\"" ++ version ++ "\"").data then none
        else some (base ++ l.text ++ "\n")

/-- Dependency kind as cargo reports it (`DepKind`). -/
inductive DepKindM
  | normal
  | dev
  | build
deriving DecidableEq

/-- Target platform of a dependency: a plain platform name or a `cfg`
expression. -/
inductive PlatformM
  | name (s : String)
  | cfg (s : String)
deriving DecidableEq

/-- The serialized dependency record (src/main.rs lines 117-127), fields in
the serialized order. -/
structure RegistryDependency where
  name : String
  req : String
  features : List String
  optional : Bool
  default_features : Bool
  target : Option String
  kind : Option String
  package : Option String
deriving DecidableEq

/-- The serialized index record (src/main.rs lines 107-115); `features` is
a `BTreeMap`, modelled as an assoc list sorted by key. -/
structure RegistryPackage where
  name : String
  vers : String
  deps : List RegistryDependency
  cksum : String
  features : List (String × List String)
  yanked : Option Bool
deriving DecidableEq

/-- The data the code reads from one cargo `Dependency` when building a
record (src/main.rs lines 716-739 and 772-795). -/
structure DepInput where
  explicit_name_in_toml : Option String
  package_name : String
  version_req : String
  features : List String
  is_optional : Bool
  uses_default_features : Bool
  platform : Option PlatformM
  kind : DepKindM
deriving DecidableEq

/-- Three-way comparison of character lists (Rust `str` ordering). -/
def cmpListChar : List Char → List Char → Ordering
  | [], [] => .eq
  | [], _ :: _ => .lt
  | _ :: _, [] => .gt
  | a :: as, b :: bs => if a < b then .lt else if b < a then .gt else cmpListChar as bs

/-- Three-way comparison of strings. -/
def cmpStr (a b : String) : Ordering := cmpListChar a.data b.data

/-- Three-way comparison of booleans (`false < true`, Rust's `Ord`). -/
def cmpBool : Bool → Bool → Ordering
  | false, false => .eq
  | false, true => .lt
  | true, false => .gt
  | true, true => .eq

/-- Lexicographic three-way comparison of string lists (Rust `Vec` `Ord`). -/
def cmpListStr : List String → List String → Ordering
  | [], [] => .eq
  | [], _ :: _ => .lt
  | _ :: _, [] => .gt
  | a :: as, b :: bs => (cmpStr a b).then (cmpListStr as bs)

/-- Three-way comparison of optional strings (`None < Some`, Rust's `Ord`). -/
def cmpOptStr : Option String → Option String → Ordering
  | none, none => .eq
  | none, some _ => .lt
  | some _, none => .gt
  | some a, some b => cmpStr a b

/-- The derived `Ord` of `RegistryDependency`: lexicographic over its
fields in declaration order. -/
def cmpDep (a b : RegistryDependency) : Ordering :=
  (cmpStr a.name b.name).then <|
    (cmpStr a.req b.req).then <|
      (cmpListStr a.features b.features).then <|
        (cmpBool a.optional b.optional).then <|
          (cmpBool a.default_features b.default_features).then <|
            (cmpOptStr a.target b.target).then <|
              (cmpOptStr a.kind b.kind).then (cmpOptStr a.package b.package)

/-- Non-strict order on dependency records induced by the derived `Ord`. -/
def depLe (a b : RegistryDependency) : Bool := cmpDep a b != Ordering.gt

/-- Non-strict lexicographic order on strings. -/
def strLe (a b : String) : Bool := leListChar a.data b.data

/-- The dependency-record construction shared by `registry_pkg` and
`registry_pkg_from_summary` (src/main.rs lines 717-739, 773-795): a rename
puts the import name in `name` and the real crate name in `package`. -/
def mkRegistryDependency (dep : DepInput) : RegistryDependency :=
  let np : String × Option String :=
    match dep.explicit_name_in_toml with
    | some explicit => (explicit, some dep.package_name)
    | none => (dep.package_name, none)
  { name := np.1
    req := dep.version_req
    features := dep.features
    optional := dep.is_optional
    default_features := dep.uses_default_features
    target := dep.platform.map fun p =>
      match p with
      | .name s => s
      | .cfg s => "cfg(" ++ s ++ ")"
    kind := match dep.kind with
      | .normal => none
      | .dev => some "dev"
      | .build => some "build"
    package := np.2 }

/-- The data the code reads from a resolved package or summary: identity,
dependencies, features, and the upstream record's yanked flag, which the
constructors below never consult. -/
structure PkgInput where
  name : String
  vers : String
  dependencies : List DepInput
  features : List (String × List String)
  upstream_yanked : Option Bool
deriving DecidableEq

/-- Model of `registry_pkg` (src/main.rs lines 767-823): build the record
from a resolved package, sorting dependencies, feature values and feature
keys, reading the checksum through two `unwrap_or_default`, and setting
`yanked` to `Some(false)`. -/
def registry_pkg (pkg : PkgInput) (cksum_lookup : Option (Option String)) :
    RegistryPackage :=
  { name := pkg.name
    vers := pkg.vers
    deps := sortByLe depLe (pkg.dependencies.map mkRegistryDependency)
    features := sortByLe (fun a b => strLe a.1 b.1)
      (pkg.features.map fun kv => (kv.1, sortByLe strLe kv.2))
    cksum := (cksum_lookup.getD none).getD ""
    yanked := some false }

/-- Model of `registry_pkg_from_summary` (src/main.rs lines 708-765): the
add-one-crate flow's record constructor; same shape as `registry_pkg`, fed
from an index summary and a checksum map lookup. -/
def registry_pkg_from_summary (summary : PkgInput) (cksum_lookup : Option (Option String)) :
    RegistryPackage :=
  { name := summary.name
    vers := summary.vers
    deps := sortByLe depLe (summary.dependencies.map mkRegistryDependency)
    features := sortByLe (fun a b => strLe a.1 b.1)
      (summary.features.map fun kv => (kv.1, sortByLe strLe kv.2))
    cksum := (cksum_lookup.getD none).getD ""
    yanked := some false }

/-- Filesystem metadata the archive builder reads from each file. -/
structure FsMetadata where
  mtime : Nat
  uid : Nat
  gid : Nat
  mode : Nat
deriving DecidableEq

/-- The tar crate's header-filling modes. -/
inductive HeaderModeM
  | complete
  | deterministic
deriving DecidableEq

/-- A tar header, restricted to the fields determinism depends on.
`Header::new_ustar()` zero-initializes them. -/
structure TarHeader where
  path : String := ""
  mtime : Nat := 0
  uid : Nat := 0
  gid : Nat := 0
  mode : Nat := 0
  uname : String := ""
  gname : String := ""
deriving DecidableEq

/-- The tar crate's `Header::fill_from`: `Complete` copies the file's
mtime/uid/gid/mode; `Deterministic` zeroes mtime/uid/gid and normalizes the
mode to 0o755/0o644 by the executable bit. -/
def fill_from (h : TarHeader) (meta : FsMetadata) : HeaderModeM → TarHeader
  | .complete => { h with mtime := meta.mtime, uid := meta.uid, gid := meta.gid, mode := meta.mode }
  | .deterministic =>
    { h with
      mtime := 0
      uid := 0
      gid := 0
      mode := if meta.mode / 64 % 2 = 1 then 493 else 420 }

/-- The tar crate's `Header::set_metadata`, which is `fill_from` in
`Complete` mode regardless of any mode set on the builder. -/
def set_metadata (h : TarHeader) (meta : FsMetadata) : TarHeader :=
  fill_from h meta .complete

/-- A tar builder: the `HeaderMode` configured via `Builder::mode` (used
only by the append methods that read metadata implicitly, none of which
this program calls), and the entries appended so far. -/
structure TarBuilder where
  headerMode : HeaderModeM := .complete
  entries : List (TarHeader × String) := []
deriving DecidableEq

/-- `Builder::append`: writes the given header and content verbatim; the
builder's configured mode plays no part. -/
def tarAppend (b : TarBuilder) (h : TarHeader) (content : String) : TarBuilder :=
  { b with entries := b.entries ++ [(h, content)] }

/-- One input file for the archive builder: path relative to the package
root, its filesystem metadata, and its contents. -/
structure ArchiveFile where
  rel_path : String
  metadata : FsMetadata
  content : String
deriving DecidableEq

/-- Model of `build_ar_from_files` (src/main.rs lines 665-706): for each
file, build a ustar header, set its path to `{name}-{version}/<relative>`,
fill it from the file's metadata via `set_metadata`, and append it. -/
def build_ar_from_files (ar : TarBuilder) (files : List ArchiveFile)
    (pkg_name pkg_version : String) : TarBuilder :=
  files.foldl
    (fun b f =>
      let path := pkg_name ++ "-" ++ pkg_version ++ "/" ++ f.rel_path
      let header := set_metadata { path := path } f.metadata
      tarAppend b header f.content)
    ar

/-- The P2 archive task (src/main.rs lines 597-603): create the builder,
set `Builder::mode(HeaderMode::Deterministic)`, and run
`build_ar_from_files`. -/
def create_archive_task (files : List ArchiveFile) (pkg_name pkg_version : String) :
    TarBuilder :=
  build_ar_from_files { headerMode := .deterministic } files pkg_name pkg_version

/-- A path component in the sense of Rust's `std::path::Components`: a
normal segment or a `..` (empty segments and `.` are skipped there and
never compared; `..` is kept and not collapsed). -/
inductive PathComp
  | parent
  | normal (s : String)
deriving DecidableEq

/-- Components of a relative path string, per `Path::components`: split on
`/`, drop empty segments and `.`, keep `..` as `parent`. -/
def parseRelPath (s : String) : List PathComp :=
  (splitOnChar '/' s.data).filterMap fun seg =>
    if seg = [] ∨ seg = ['.'] then none
    else if seg = ['.', '.'] then some .parent
    else some (.normal (String.mk seg))

/-- Drop all leading `'/'` characters (model of
`uri.path().trim_start_matches('/')`). -/
def trimLeadingSlashes (s : String) : String :=
  String.mk (s.data.dropWhile (fun c => c = '/'))

/-- Component-wise prefix test, the model of `Path::starts_with`: no
normalization of `..` takes place. -/
def startsWithPath : List PathComp → List PathComp → Bool
  | _, [] => true
  | [], _ :: _ => false
  | c :: cs, d :: ds => if c = d then startsWithPath cs ds else false

/-- Filesystem path resolution as the OS performs it on `read`: `..` pops
the last retained segment. -/
def normalizePath (cs : List PathComp) : List PathComp :=
  cs.foldl
    (fun acc c =>
      match c with
      | .parent => acc.dropLast
      | .normal s => acc ++ [.normal s])
    []

/-- Result of the fallback file handler. -/
inductive ServeFileResult
  | ok (content : String)
  | notFound
  | forbidden
deriving DecidableEq

/-- Model of `serve_file` (src/lib.rs lines 409-455): join the registry
root with the slash-trimmed request path, reject with 403 when the joined
path does not `starts_with` the root (a component-wise check), otherwise
read the file (the OS resolves `..` at that point).  The second component
lists the resolved paths handed to `fs::read`. -/
def serve_file (registry_path : List PathComp) (fs : List PathComp → Option String)
    (uriPath : String) : ServeFileResult × List (List PathComp) :=
  let file_path := trimLeadingSlashes uriPath
  let full_path := registry_path ++ parseRelPath file_path
  if startsWithPath full_path registry_path = false then (.forbidden, [])
  else
    match fs (normalizePath full_path) with
    | some content => (.ok content, [normalizePath full_path])
    | none => (.notFound, [normalizePath full_path])

/-- An observable side effect of the archive handler. -/
inductive Effect
  | fsRead (p : String)
  | fsWrite (p : String)
  | fsRemove (p : String)
  | upstreamGet (url : String)
  | cacheIndex (name version : String) (clean : Bool)
deriving DecidableEq

/-- HTTP outcome of a handler. -/
inductive HttpResult
  | ok (body : String)
  | notFound
  | badRequest
  | serverError
deriving DecidableEq

/-- The `.crate` suffix test used by `serve_crate_file`. -/
def endsWithCrate (f : String) : Bool := (stripSuffixL f.data ".crate".data).isSome

/-- The crates.io download URL built by `serve_crate_file`. -/
def download_url (n v : String) : String :=
  "https://crates.io/api/v1/crates/" ++ n ++ "/" ++ v ++ "/download"

/-- Model of `serve_crate_file` (src/lib.rs lines 286-407).  `fs` maps a
filename under `R` to its contents, `dir` lists the files under `R` (for
eviction), and `download` is the upstream download outcome: `none` a
transport error, `some none` a non-2xx status, `some (some bytes)` a
success.  A filename that does not end in `.crate` is answered 404 with no
effect at all (lines 404-406). -/
def serve_crate_file (filename : String) (enable_proxy clean : Bool)
    (fs : String → Option String) (dir : List String)
    (download : Option (Option String)) : HttpResult × List Effect :=
  if endsWithCrate filename then
    match fs filename with
    | some content => (.ok content, [.fsRead filename])
    | none =>
      if enable_proxy then
        match parse_crate_filename filename with
        | none => (.badRequest, [.fsRead filename])
        | some nv =>
          match download with
          | none => (.serverError, [.fsRead filename, .upstreamGet (download_url nv.1 nv.2)])
          | some none => (.notFound, [.fsRead filename, .upstreamGet (download_url nv.1 nv.2)])
          | some (some content) =>
            let removals :=
              if clean then (remove_prior_versions dir nv.1 nv.2).map Effect.fsRemove else []
            (.ok content,
              [.fsRead filename, .upstreamGet (download_url nv.1 nv.2)] ++ removals ++
                [.fsWrite filename, .cacheIndex nv.1 nv.2 clean])
      else (.notFound, [.fsRead filename])
  else (.notFound, [])

/-- The handler a request is routed to. -/
inductive Route
  | config
  | indexGeneric (rest : List String)
  | crateFile (filename : String)
  | fallback (segs : List String)
deriving DecidableEq

/-- The axum router of `serve_registry` (src/lib.rs lines 41-46):
`/index/config.json`, then the `/index/{*path}` wildcard (nonempty rest),
then the single-segment `/{filename}` route, then the fallback. -/
def route : List String → Route
  | ["index", "config.json"] => .config
  | ["index"] => .crateFile "index"
  | "index" :: rest => .indexGeneric rest
  | [f] => .crateFile f
  | segs => .fallback segs

/-- The serve engine's in-memory cache entry (src/types.rs lines 11-14),
with `Instant` as a natural number of time units. -/
structure CachedIndex where
  content : String
  last_check : Nat
deriving DecidableEq

/-- Kind of an upstream request issued by the index handler: the bounded
500 ms refresh or the unbounded proxy fetch. -/
inductive ReqKind
  | bounded
  | unbounded
deriving DecidableEq

/-- Result of one index-handler invocation: the response, the new cache
entry and local file for this crate, and the upstream requests issued,
each with its time and whether it succeeded. -/
structure IndexStepResult where
  response : HttpResult
  cache : Option CachedIndex
  localFile : Option String
  requests : List (Nat × ReqKind × Bool)
deriving DecidableEq

/-- The part of `serve_index_generic` after a failed or skipped freshness
hit (src/lib.rs lines 132-283): attempt the bounded refresh; on success
insert the entry and serve; on failure update an existing entry's
`last_check`, then fall back to the local file, and only when that is
absent issue the unbounded proxy fetch (writing the local file on
success). -/
def index_refresh (cache : Option CachedIndex) (localFile : Option String) (now : Nat)
    (refreshResp : Option String) (proxyResp : Option (Option String)) : IndexStepResult :=
  match refreshResp with
  | some c =>
    { response := .ok c
      cache := some ⟨c, now⟩
      localFile := localFile
      requests := [(now, .bounded, true)] }
  | none =>
    let cache2 := match cache with
      | some e => some { e with last_check := now }
      | none => none
    match localFile with
    | some content =>
      { response := .ok content
        cache := cache2
        localFile := localFile
        requests := [(now, .bounded, false)] }
    | none =>
      match proxyResp with
      | some (some c) =>
        { response := .ok c
          cache := cache2
          localFile := some c
          requests := [(now, .bounded, false), (now, .unbounded, true)] }
      | some none =>
        { response := .notFound
          cache := cache2
          localFile := localFile
          requests := [(now, .bounded, false), (now, .unbounded, false)] }
      | none =>
        { response := .serverError
          cache := cache2
          localFile := localFile
          requests := [(now, .bounded, false), (now, .unbounded, false)] }

/-- Model of one invocation of `serve_index_generic` for a fixed crate
(src/lib.rs lines 78-283).  `refreshResp` is the bounded-refresh outcome
(`none` covers timeout, transport error, non-2xx and body-read failure,
which the code treats alike), `proxyResp` the unbounded-proxy outcome as
in `serve_crate_file`.  With proxying enabled, a cache entry with
`now - last_check < cache_ttl` is served directly with no upstream
request. -/
def serve_index_generic (enable_proxy : Bool) (cache_ttl : Nat)
    (cache : Option CachedIndex) (localFile : Option String) (now : Nat)
    (refreshResp : Option String) (proxyResp : Option (Option String)) : IndexStepResult :=
  if enable_proxy then
    match cache with
    | some e =>
      if now - e.last_check < cache_ttl then
        { response := .ok e.content
          cache := cache
          localFile := localFile
          requests := [] }
      else index_refresh cache localFile now refreshResp proxyResp
    | none => index_refresh cache localFile now refreshResp proxyResp
  else
    match localFile with
    | some content =>
      { response := .ok content
        cache := cache
        localFile := localFile
        requests := [] }
    | none =>
      { response := .notFound
        cache := cache
        localFile := localFile
        requests := [] }

/-- One request to the index handler in a run: its time and the upstream
outcomes it would observe. -/
structure IndexInv where
  now : Nat
  refreshResp : Option String
  proxyResp : Option (Option String)
deriving DecidableEq

/-- A run of the index handler over a sequence of requests for one crate,
threading the cache entry and local file and collecting all upstream
requests issued. -/
def runIndex (enable_proxy : Bool) (ttl : Nat) :
    Option CachedIndex → Option String → List IndexInv → List (Nat × ReqKind × Bool)
  | _, _, [] => []
  | cache, localF, iv :: rest =>
    let r := serve_index_generic enable_proxy ttl cache localF iv.now iv.refreshResp iv.proxyResp
    r.requests ++ runIndex enable_proxy ttl r.cache r.localFile rest

/-- Times of the bounded-refresh requests in a trace. -/
def boundedTimes (tr : List (Nat × ReqKind × Bool)) : List Nat :=
  tr.filterMap fun e => if e.2.1 = ReqKind.bounded then some e.1 else none

/-- Times of the successful upstream responses in a trace. -/
def successTimes (tr : List (Nat × ReqKind × Bool)) : List Nat :=
  tr.filterMap fun e => if e.2.2 then some e.1 else none

/-- Number of upstream requests in a trace whose time lies in `[a, b)`. -/
def requestsWithin (tr : List (Nat × ReqKind × Bool)) (a b : Nat) : Nat :=
  (tr.filter fun e => a ≤ e.1 && e.1 < b).length

/-- Discriminator for the 403 outcome of the fallback handler. -/
def isForbidden : ServeFileResult → Bool
  | .forbidden => true
  | _ => false

/-- Model of `Vec::join("\n")`: lines joined by a newline, with no
trailing newline (src/main.rs line 869). -/
def join_with_newline : List String → String
  | [] => ""
  | [x] => x
  | x :: rest => x ++ "\n" ++ join_with_newline rest

/-- The file contents `update_index_entry` writes (src/main.rs lines
869-871): the sorted lines joined by newlines, without a trailing
newline. -/
def update_index_entry_file (prev : List IndexLine) (line : IndexLine) (version : String) :
    String :=
  join_with_newline ((update_index_entry prev line version).map IndexLine.s)

/-- Dropping the digit prefix of `t ++ '-' :: v` with `t` dot-free leaves a
list whose head exists and is not `'.'`. -/
theorem dropWhile_digits_dash (t v : List Char) (h : ∀ c ∈ t, c ≠ '.') :
    ∃ c r, (t ++ '-' :: v).dropWhile isDigitC = c :: r ∧ c ≠ '.' := by
  induction t with
  | nil =>
    refine ⟨'-', v, ?_, by decide⟩
    have hd : isDigitC '-' = false := by decide
    simp [List.dropWhile, hd]
  | cons c t' ih =>
    by_cases hc : isDigitC c = true
    · have := ih (fun x hx => h x (List.mem_cons_of_mem _ hx))
      simpa [List.dropWhile, hc] using this
    · refine ⟨c, t' ++ '-' :: v, ?_, h c (List.mem_cons_self _ _)⟩
      simp [List.dropWhile, hc]

/-- A string of the form `t ++ "-" ++ v` with `t` dot-free is never a valid
semver version: the major number must be followed immediately by `'.'`,
but the first non-digit reachable there is either a character of `t`
(dot-free) or the inserted `'-'`. -/
theorem semver_dash_false (t v : List Char) (h : ∀ c ∈ t, c ≠ '.') :
    semverValidL (t ++ '-' :: v) = false := by
  obtain ⟨c, r, hdrop, hc⟩ := dropWhile_digits_dash t v h
  simp only [semverValidL, hdrop, expectDot, if_neg hc, Bool.and_false]

/-- The left-to-right scan walks through the dot-free remainder `t` of the
crate name without accepting any split, and accepts at the boundary dash
in front of a valid version. -/
theorem scanSplit_boundary (t : List Char) : ∀ (pre v : List Char),
    (∀ c ∈ t, c ≠ '.') → (pre ++ t).isEmpty = false → semverValidL v = true →
    scanSplit pre (t ++ '-' :: v) = some (pre ++ t, v) := by
  induction t with
  | nil =>
    intro pre v _ hpre hv
    simp only [List.append_nil] at hpre ⊢
    simp [scanSplit, hv, hpre]
  | cons c t' ih =>
    intro pre v hdot hpre hv
    have hdot' : ∀ x ∈ t', x ≠ '.' := fun x hx => hdot x (List.mem_cons_of_mem _ hx)
    have hpre' : ((pre ++ [c]) ++ t').isEmpty = false := by
      simp [List.isEmpty_iff]
    have harr : (pre ++ [c]) ++ t' = pre ++ c :: t' := by simp
    by_cases hc : c = '-'
    · subst hc
      have hbad : semverValidL (t' ++ '-' :: v) = false := semver_dash_false t' v hdot'
      have hrec := ih (pre ++ ['-']) v hdot' hpre' hv
      rw [harr] at hrec
      simp only [List.cons_append, List.append_eq, scanSplit, eq_self_iff_true, if_true,
        hbad, Bool.false_and, Bool.false_eq_true, if_false]
      exact hrec
    · have hrec := ih (pre ++ [c]) v hdot' hpre' hv
      rw [harr] at hrec
      simp only [List.cons_append, List.append_eq, scanSplit, if_neg hc]
      exact hrec

/-- Stripping an exact suffix from a list that ends with it returns the
prefix. -/
theorem stripSuffixL_append (a suf : List Char) :
    stripSuffixL (a ++ suf) suf = some a := by
  have hs : suf.isSuffixOf (a ++ suf) = true := by
    rw [List.isSuffixOf_iff_suffix]
    exact List.suffix_append a suf
  simp [stripSuffixL, hs, List.take_left']

/-- For a dot-free nonempty name and a valid semver version, the filename
`{name}-{vers}.crate` is parsed back to `(name, vers)` by the left-to-right
first-valid-split scan. -/
theorem parse_crate_filename_recovers (name vers : String)
    (h1 : name.data ≠ []) (h2 : ∀ c ∈ name.data, c ≠ '.')
    (hv : semverValidL vers.data = true) :
    parse_crate_filename (name ++ "-" ++ vers ++ ".crate") = some (name, vers) := by
  have hdata : (name ++ "-" ++ vers ++ ".crate").data
      = (name.data ++ '-' :: vers.data) ++ ".crate".data := by
    simp [String.data_append]
  have hstrip := stripSuffixL_append (name.data ++ '-' :: vers.data) ".crate".data
  have hpre : (([] : List Char) ++ name.data).isEmpty = false := by
    simpa [List.isEmpty_iff] using h1
  have hscan := scanSplit_boundary name.data [] vers.data h2 hpre hv
  simp only [List.nil_append] at hscan
  simp only [parse_crate_filename, hdata, hstrip, hscan]

/-- A dash-free list has no rightmost-dash split. -/
theorem rsplitDash_none_of_nodash (cs : List Char) (h : '-' ∉ cs) :
    rsplitDash cs = none := by
  induction cs with
  | nil => rfl
  | cons c rest ih =>
    have hc : c ≠ '-' := fun e => h (e ▸ List.mem_cons_self _ _)
    have hrest : '-' ∉ rest := fun e => h (List.mem_cons_of_mem _ e)
    simp [rsplitDash, ih hrest, hc]

/-- A list with no rightmost-dash split is dash-free. -/
theorem nodash_of_rsplitDash_none (cs : List Char) (h : rsplitDash cs = none) :
    '-' ∉ cs := by
  induction cs with
  | nil => simp
  | cons c rest ih =>
    intro hmem
    rcases hr : rsplitDash rest with _ | p
    · simp only [rsplitDash, hr] at h
      rcases List.mem_cons.mp hmem with hc | hc
      · rw [← hc] at h; simp at h
      · exact ih hr hc
    · simp [rsplitDash, hr] at h

/-- The rightmost-dash split decomposes its input, and the suffix is
dash-free. -/
theorem rsplitDash_eq (cs : List Char) (a b : List Char)
    (h : rsplitDash cs = some (a, b)) :
    cs = a ++ '-' :: b ∧ '-' ∉ b := by
  induction cs generalizing a with
  | nil => simp [rsplitDash] at h
  | cons c rest ih =>
    rcases hr : rsplitDash rest with _ | p
    · simp only [rsplitDash, hr] at h
      by_cases hc : c = '-'
      · simp only [if_pos hc, Option.some.injEq, Prod.mk.injEq] at h
        subst hc
        obtain ⟨ha, hb⟩ := h
        subst ha; subst hb
        exact ⟨rfl, nodash_of_rsplitDash_none _ hr⟩
      · simp [if_neg hc] at h
    · simp only [rsplitDash, hr, Option.some.injEq, Prod.mk.injEq] at h
      obtain ⟨ha, hb⟩ := h
      obtain ⟨hrest, hnod⟩ := ih p.1 (by rw [hr, ← hb])
      subst ha
      constructor
      · simp [hrest]
      · exact hb ▸ hnod

/-- The rightmost-dash split of `a ++ '-' :: v` with dash-free `v` is
`(a, v)`. -/
theorem rsplitDash_append (a v : List Char) (hv : '-' ∉ v) :
    rsplitDash (a ++ '-' :: v) = some (a, v) := by
  induction a with
  | nil => simp [rsplitDash, rsplitDash_none_of_nodash v hv]
  | cons c a' ih => simp [rsplitDash, ih]

/-- Two decompositions of one list at a separator `x`, the second with a
separator-free tail: either they coincide, or the second cut point lies
strictly to the right of the first. -/
theorem append_sep_eq {x : Char} {b d : List Char} (hd : x ∉ d) :
    ∀ a c : List Char, a ++ x :: b = c ++ x :: d →
      (a = c ∧ b = d) ∨ ∃ mid, c = a ++ x :: mid ∧ b = mid ++ x :: d := by
  intro a
  induction a with
  | nil =>
    intro c hc
    cases c with
    | nil =>
      left
      simpa using hc
    | cons e c' =>
      right
      simp only [List.nil_append, List.cons_append, List.cons.injEq] at hc
      exact ⟨c', by simp [hc.1], hc.2⟩
  | cons e a' ih =>
    intro c hc
    cases c with
    | nil =>
      exfalso
      simp only [List.cons_append, List.nil_append, List.cons.injEq] at hc
      exact hd (hc.2 ▸ List.mem_append_right a' (List.mem_cons_self _ _))
    | cons f c' =>
      simp only [List.cons_append, List.cons.injEq] at hc
      obtain ⟨hef, htail⟩ := hc
      rcases ih c' htail with ⟨h1, h2⟩ | ⟨mid, h1, h2⟩
      · left
        exact ⟨by rw [hef, h1], h2⟩
      · right
        exact ⟨mid, by rw [hef, h1]; rfl, h2⟩

/-- Soundness of the left-to-right scan: an accepted split decomposes the
input at a dash whose suffix is a valid semver version. -/
theorem scanSplit_sound : ∀ (rest pre a b : List Char),
    scanSplit pre rest = some (a, b) →
    ∃ t, rest = t ++ '-' :: b ∧ a = pre ++ t ∧ semverValidL b = true := by
  intro rest
  induction rest with
  | nil => intro pre a b h; simp [scanSplit] at h
  | cons c rest' ih =>
    intro pre a b h
    by_cases hc : c = '-'
    · subst hc
      by_cases hcond : (semverValidL rest' && !pre.isEmpty) = true
      · simp only [scanSplit, if_pos rfl, hcond, if_true, Option.some.injEq,
          Prod.mk.injEq] at h
        obtain ⟨ha, hb⟩ := h
        subst ha; subst hb
        exact ⟨[], rfl, by simp, (Bool.and_elim_left hcond)⟩
      · simp only [scanSplit, if_pos rfl, hcond, if_false] at h
        obtain ⟨t', h1, h2, h3⟩ := ih (pre ++ ['-']) a b h
        exact ⟨'-' :: t', by simp [h1], by simp [h2], h3⟩
    · simp only [scanSplit, if_neg hc] at h
      obtain ⟨t', h1, h2, h3⟩ := ih (pre ++ [c]) a b h
      exact ⟨c :: t', by simp [h1], by simp [h2], h3⟩

/-- Membership in the eviction result: a file is removed exactly when it
ends in `.crate` and its rightmost-dash split has prefix `crate_name` and a
different suffix. -/
theorem remove_prior_versions_mem (entries : List String) (cn kv f : String) :
    f ∈ remove_prior_versions entries cn kv ↔
      f ∈ entries ∧ ∃ st v, stripSuffixL f.data ".crate".data = some st ∧
        rsplitDash st = some (cn.data, v) ∧ v ≠ kv.data := by
  simp only [remove_prior_versions, List.mem_filter]
  constructor
  · rintro ⟨hf, hp⟩
    refine ⟨hf, ?_⟩
    rcases h1 : stripSuffixL f.data ".crate".data with _ | st
    · rw [h1] at hp
      simp at hp
    · rw [h1] at hp
      simp only at hp
      rcases h2 : rsplitDash st with _ | p
      · rw [h2] at hp
        simp at hp
      · rw [h2] at hp
        simp only [Bool.and_eq_true, beq_iff_eq, bne_iff_ne] at hp
        exact ⟨st, p.2, rfl, by rw [h2, ← hp.1], hp.2⟩
  · rintro ⟨hf, st, v, h1, h2, h3⟩
    refine ⟨hf, ?_⟩
    rw [h1]
    simp only
    rw [h2]
    simp [h3]

/-- For a name attached to a dash-free version, eviction keeps exactly the
matching-version file and removes any other. -/
theorem remove_prior_versions_nodash (name v ver : String) (hv : '-' ∉ v.data) :
    remove_prior_versions [name ++ "-" ++ v ++ ".crate"] name ver
      = if v.data = ver.data then [] else [name ++ "-" ++ v ++ ".crate"] := by
  have hdata : (name ++ "-" ++ v ++ ".crate").data
      = (name.data ++ '-' :: v.data) ++ ".crate".data := by
    simp [String.data_append]
  have hstrip := stripSuffixL_append (name.data ++ '-' :: v.data) ".crate".data
  have hrs := rsplitDash_append name.data v.data hv
  simp only [remove_prior_versions, List.filter, hdata, hstrip, hrs]
  by_cases he : v.data = ver.data
  · have hb : (v.data != ver.data) = false := by simp [he]
    simp [he, hb]
  · have hb : (v.data != ver.data) = true := bne_iff_ne.mpr he
    simp [he, hb]

/-- A removed file with a valid archive-name parse always belongs to the
crate being evicted, provided the crate name is dot-free. -/
theorem remove_prior_versions_same_crate (entries : List String) (name ver f n v : String)
    (hname : ∀ c ∈ name.data, c ≠ '.')
    (hrem : f ∈ remove_prior_versions entries name ver)
    (hparse : parse_crate_filename f = some (n, v)) : n = name := by
  obtain ⟨-, st, v', h1, h2, -⟩ := (remove_prior_versions_mem entries name ver f).mp hrem
  obtain ⟨hst, hv'⟩ := rsplitDash_eq st name.data v' h2
  rw [parse_crate_filename] at hparse
  rw [h1] at hparse
  simp only at hparse
  rcases h3 : scanSplit [] st with _ | p
  · rw [h3] at hparse
    simp at hparse
  · rw [h3] at hparse
    simp only [Option.some.injEq, Prod.mk.injEq] at hparse
    obtain ⟨t, hrest, ha, hsem⟩ := scanSplit_sound st [] p.1 p.2 (by rw [h3])
    have hn : p.1 = n.data := by rw [← hparse.1]
    have hvv : p.2 = v.data := by rw [← hparse.2]
    simp only [List.nil_append] at ha
    rw [hst] at hrest
    rcases append_sep_eq hv' t name.data hrest.symm with ⟨hL, hR⟩ | ⟨mid, hL, hR⟩
    · apply String.ext
      rw [← hn, ha, hL]
    · exfalso
      have hmid : ∀ c ∈ mid, c ≠ '.' := by
        intro c hc
        apply hname
        rw [hL]
        exact List.mem_append_right t (List.mem_cons_of_mem _ hc)
      have hfalse := semver_dash_false mid v' hmid
      rw [← hR] at hfalse
      rw [hsem] at hfalse
      simp at hfalse

/-- Totality of the lexicographic order on character lists. -/
theorem leListChar_total (a : List Char) : ∀ b, leListChar a b = true ∨ leListChar b a = true := by
  induction a with
  | nil => intro b; left; rfl
  | cons x xs ih =>
    intro b
    cases b with
    | nil => right; rfl
    | cons y ys =>
      rcases lt_trichotomy x y with h | h | h
      · left; simp [leListChar, h]
      · subst h
        rcases ih ys with h2 | h2
        · left; simp [leListChar, h2]
        · right; simp [leListChar, h2]
      · right; simp [leListChar, h]

/-- Totality of the order on index lines. -/
theorem lineLe_total (a b : IndexLine) : lineLe a b = true ∨ lineLe b a = true :=
  leListChar_total a.s.data b.s.data

/-- Inserting into an adjacently sorted list keeps it adjacently sorted,
for any total boolean relation. -/
theorem chain_insertByLe {α : Type} (le : α → α → Bool)
    (htot : ∀ a b, le a b = true ∨ le b a = true) (x : α) :
    ∀ l, List.Chain' (fun a b => le a b = true) l →
      List.Chain' (fun a b => le a b = true) (insertByLe le x l) := by
  intro l
  induction l with
  | nil => intro _; simp [insertByLe]
  | cons y ys ih =>
    intro hch
    by_cases hxy : le x y = true
    · simp only [insertByLe, if_pos hxy]
      exact List.chain'_cons.mpr ⟨hxy, hch⟩
    · simp only [insertByLe, if_neg hxy]
      have hyx : le y x = true := (htot x y).resolve_left hxy
      cases ys with
      | nil => simp [insertByLe, List.chain'_pair, hyx]
      | cons z zs =>
        rw [List.chain'_cons] at hch
        by_cases hxz : le x z = true
        · simp only [insertByLe, if_pos hxz]
          exact List.chain'_cons.mpr ⟨hyx, List.chain'_cons.mpr ⟨hxz, hch.2⟩⟩
        · simp only [insertByLe, if_neg hxz]
          refine List.chain'_cons.mpr ⟨hch.1, ?_⟩
          have hrec := ih hch.2
          simp only [insertByLe, if_neg hxz] at hrec
          exact hrec

/-- The insertion sort produces an adjacently sorted list for any total
boolean relation. -/
theorem chain_sortByLe {α : Type} (le : α → α → Bool)
    (htot : ∀ a b, le a b = true ∨ le b a = true) :
    ∀ l : List α, List.Chain' (fun a b => le a b = true) (sortByLe le l) := by
  intro l
  induction l with
  | nil => simp [sortByLe]
  | cons x xs ih => exact chain_insertByLe le htot x _ ih

/-- Insertion is a permutation of consing. -/
theorem insertByLe_perm {α : Type} (le : α → α → Bool) (x : α) :
    ∀ l : List α, (insertByLe le x l).Perm (x :: l) := by
  intro l
  induction l with
  | nil => simp [insertByLe]
  | cons y ys ih =>
    by_cases hxy : le x y = true
    · simp [insertByLe, hxy]
    · simp only [insertByLe, if_neg hxy]
      exact (ih.cons y).trans (List.Perm.swap x y ys)

/-- The insertion sort permutes its input. -/
theorem sortByLe_perm {α : Type} (le : α → α → Bool) :
    ∀ l : List α, (sortByLe le l).Perm l := by
  intro l
  induction l with
  | nil => simp [sortByLe]
  | cons x xs ih => exact (insertByLe_perm le x _).trans (ih.cons x)

/-- Membership is preserved by the insertion sort. -/
theorem mem_sortByLe {α : Type} (le : α → α → Bool) (l : List α) (e : α) :
    e ∈ sortByLe le l ↔ e ∈ l :=
  (sortByLe_perm le l).mem_iff

/-- The output of `update_index_entry` is sorted lexicographically over the
serialized lines. -/
theorem update_index_entry_sorted (prev : List IndexLine) (line : IndexLine) (version : String) :
    List.Chain' (fun a b => lineLe a b = true) (update_index_entry prev line version) :=
  chain_sortByLe lineLe lineLe_total _

/-- Membership in the output of `update_index_entry`: the new line, plus
every previous line whose `vers` differs from the incoming version. -/
theorem update_index_entry_mem (prev : List IndexLine) (line : IndexLine) (version : String)
    (e : IndexLine) :
    e ∈ update_index_entry prev line version ↔ (e ∈ prev ∧ e.vers ≠ version) ∨ e = line := by
  unfold update_index_entry
  rw [mem_sortByLe, List.mem_append, List.mem_filter, List.mem_singleton]
  simp [bne_iff_ne]

/-- The output of `update_index_entry` has pairwise distinct `vers` values
whenever the previous lines do and the new line's `vers` is the incoming
version. -/
theorem update_index_entry_distinct (prev : List IndexLine) (line : IndexLine) (version : String)
    (hprev : List.Pairwise (fun a b => a.vers ≠ b.vers) prev)
    (hline : line.vers = version) :
    List.Pairwise (fun a b => a.vers ≠ b.vers) (update_index_entry prev line version) := by
  unfold update_index_entry
  rw [(sortByLe_perm lineLe _).pairwise_iff (fun h => Ne.symm h)]
  rw [List.pairwise_append]
  refine ⟨hprev.filter _, List.pairwise_singleton _ _, ?_⟩
  intro a ha b hb
  rw [List.mem_singleton] at hb
  subst hb
  rw [List.mem_filter] at ha
  have := ha.2
  rw [bne_iff_ne] at this
  rw [hline]
  exact this

/-- A P3 run over `pre ++ [m]` is the run over `pre` followed by one step
on `m`. -/
theorem p3Run_snoc (nd : Bool) (pre : List PkgMeta) (m : PkgMeta) (st : P3State) :
    p3Run nd (pre ++ [m]) st = p3Step nd (p3Run nd pre st) m := by
  unfold p3Run
  rw [List.foldl_append]
  rfl

/-- The added-index set after a P3 run is the list of index paths
processed, in reverse, on top of the initial set. -/
theorem p3Run_added (nd : Bool) :
    ∀ (metas : List PkgMeta) (st : P3State),
      (p3Run nd metas st).added_index
        = (metas.map PkgMeta.index_dst).reverse ++ st.added_index := by
  intro metas
  induction metas with
  | nil => intro st; rfl
  | cons m ms ih =>
    intro st
    have : p3Run nd (m :: ms) st = p3Run nd ms (p3Step nd st m) := rfl
    rw [this, ih]
    simp [p3Step]

/-- Membership test of the added-index set of a run started with an empty
set: exactly the index paths processed so far. -/
theorem p3Run_added_contains (nd : Bool) (metas : List PkgMeta)
    (fs0 : String → List IndexLine) (p : String) :
    (p3Run nd metas ⟨fs0, []⟩).added_index.contains p
      = decide (p ∈ metas.map PkgMeta.index_dst) := by
  rw [p3Run_added]
  by_cases h : p ∈ metas.map PkgMeta.index_dst
  · simp [List.contains, List.elem_iff, h]
  · simp [List.contains, List.elem_iff, h]

/-- The index file written by the step for `m`, after a run over `pre`:
previous contents are used exactly when `no_delete` is set or the same
index path was already written in this run. -/
theorem p3_keep_old (nd : Bool) (fs0 : String → List IndexLine)
    (pre : List PkgMeta) (m : PkgMeta) :
    (p3Run nd (pre ++ [m]) ⟨fs0, []⟩).fs m.index_dst
      = update_index_entry
          (if nd = true ∨ m.index_dst ∈ pre.map PkgMeta.index_dst
           then (p3Run nd pre ⟨fs0, []⟩).fs m.index_dst else [])
          m.line m.version := by
  rw [p3Run_snoc]
  simp only [p3Step, if_pos rfl]
  rw [p3Run_added_contains]
  by_cases h : nd = true ∨ m.index_dst ∈ pre.map PkgMeta.index_dst
  · have hb : (nd || decide (m.index_dst ∈ pre.map PkgMeta.index_dst)) = true := by
      rcases h with h | h
      · simp [h]
      · simp [h]
    rw [hb, if_pos h]
    simp
  · have hb : (nd || decide (m.index_dst ∈ pre.map PkgMeta.index_dst)) = false := by
      push_neg at h
      simp [h.1, h.2]
    rw [hb, if_neg h]
    simp

/-- Every line in an index file touched by a P3 run satisfies any
predicate that holds for all incoming lines and for all lines of files
already recorded as written. -/
theorem p3Run_pure (Q : IndexLine → Prop) :
    ∀ (metas : List PkgMeta) (st : P3State),
      (∀ m ∈ metas, Q m.line) →
      (∀ p, st.added_index.contains p = true → ∀ e ∈ st.fs p, Q e) →
      ∀ p, (p3Run false metas st).added_index.contains p = true →
        ∀ e ∈ (p3Run false metas st).fs p, Q e := by
  intro metas
  induction metas with
  | nil => intro st _ hst p hp e he; exact hst p hp e he
  | cons m ms ih =>
    intro st hmetas hst p hp e he
    have hrun : p3Run false (m :: ms) st = p3Run false ms (p3Step false st m) := rfl
    rw [hrun] at hp he
    refine ih (p3Step false st m) (fun x hx => hmetas x (List.mem_cons_of_mem _ hx)) ?_ p hp e he
    intro q hq x hx
    by_cases hqm : q = m.index_dst
    · subst hqm
      simp only [p3Step, eq_self_iff_true, if_true] at hx
      rw [update_index_entry_mem] at hx
      rcases hx with ⟨hx, -⟩ | hx
      · by_cases hcont : st.added_index.contains m.index_dst = true
        · have hb : (false || st.added_index.contains m.index_dst) = true := by
            rw [hcont]
            rfl
          rw [if_pos hb] at hx
          exact hst _ hcont x hx
        · have hcf : st.added_index.contains m.index_dst = false := by
            revert hcont
            cases st.added_index.contains m.index_dst <;> simp
          have hb : ¬ ((false || st.added_index.contains m.index_dst) = true) := by
            rw [hcf]
            simp
          rw [if_neg hb] at hx
          exact absurd hx (List.not_mem_nil x)
      · exact hx ▸ hmetas m (List.mem_cons_self _ _)
    · simp only [p3Step] at hq hx
      rw [if_neg hqm] at hx
      have hqtail : st.added_index.contains q = true := by
        rw [List.contains_cons] at hq
        rcases hbeq : (q == m.index_dst) with _ | _
        · rw [hbeq, Bool.false_or] at hq
          exact hq
        · exact absurd (beq_iff_eq.mp hbeq) hqm
      exact hst q hqtail x hx

/-- Joining any relative components onto a base keeps the base as a
component-wise prefix: the `starts_with` guard can never fail on a joined
path. -/
theorem startsWithPath_append : ∀ (reg rel : List PathComp),
    startsWithPath (reg ++ rel) reg = true := by
  intro reg
  induction reg with
  | nil => intro rel; cases rel <;> rfl
  | cons c cs ih =>
    intro rel
    simp [startsWithPath, ih]

/-- Shape of a refresh attempt while an entry exists: the resulting entry
carries `last_check = now`, and exactly one bounded request at `now` is
issued. -/
theorem index_refresh_shape (e : CachedIndex) (localF : Option String) (now : Nat)
    (rR : Option String) (pR : Option (Option String)) :
    ∃ c, (index_refresh (some e) localF now rR pR).cache = some ⟨c, now⟩ ∧
      boundedTimes (index_refresh (some e) localF now rR pR).requests = [now] := by
  rcases rR with _ | c
  · rcases localF with _ | lf
    · rcases pR with _ | op
      · exact ⟨e.content, rfl, rfl⟩
      · rcases op with _ | c2
        · exact ⟨e.content, rfl, rfl⟩
        · exact ⟨e.content, rfl, rfl⟩
    · exact ⟨e.content, rfl, rfl⟩
  · exact ⟨c, rfl, rfl⟩

/-- A stale attempt: with an entry present and proxying on, a non-fresh
invocation behaves as `index_refresh`. -/
theorem serve_index_generic_stale (ttl : Nat) (e : CachedIndex) (localF : Option String)
    (now : Nat) (rR : Option String) (pR : Option (Option String))
    (h : ¬ now - e.last_check < ttl) :
    serve_index_generic true ttl (some e) localF now rR pR
      = index_refresh (some e) localF now rR pR := by
  simp [serve_index_generic, h]

/-- The bounded-request times of a concatenated trace. -/
theorem boundedTimes_append (a b : List (Nat × ReqKind × Bool)) :
    boundedTimes (a ++ b) = boundedTimes a ++ boundedTimes b :=
  List.filterMap_append a b _

/-- Bounded-refresh requests in a run that starts with a cache entry are
spaced at least `ttl` apart, and all of them occur at least `ttl` after
the entry's `last_check`. -/
theorem runIndex_spacing (ttl : Nat) :
    ∀ (invs : List IndexInv) (e : CachedIndex) (localF : Option String),
      List.Pairwise (fun a b => a ≤ b) (invs.map IndexInv.now) →
      (∀ t ∈ invs.map IndexInv.now, e.last_check ≤ t) →
      List.Pairwise (fun a b => a + ttl ≤ b)
          (boundedTimes (runIndex true ttl (some e) localF invs)) ∧
        ∀ t ∈ boundedTimes (runIndex true ttl (some e) localF invs),
          e.last_check + ttl ≤ t := by
  intro invs
  induction invs with
  | nil =>
    intro e localF _ _
    exact ⟨List.Pairwise.nil, by simp [runIndex, boundedTimes]⟩
  | cons iv rest ih =>
    intro e localF hmono hbound
    rw [List.map_cons, List.pairwise_cons] at hmono
    have hb0 : e.last_check ≤ iv.now := hbound iv.now (by simp)
    by_cases hfresh : iv.now - e.last_check < ttl
    · have hrun : runIndex true ttl (some e) localF (iv :: rest)
          = runIndex true ttl (some e) localF rest := by
        simp [runIndex, serve_index_generic, hfresh]
      rw [hrun]
      exact ih e localF hmono.2 (fun t ht => hbound t (by simp [ht]))
    · obtain ⟨c, hcache, hbt⟩ :=
        index_refresh_shape e localF iv.now iv.refreshResp iv.proxyResp
      have hstep := serve_index_generic_stale ttl e localF iv.now iv.refreshResp
        iv.proxyResp hfresh
      have hrun : runIndex true ttl (some e) localF (iv :: rest)
          = (index_refresh (some e) localF iv.now iv.refreshResp iv.proxyResp).requests
            ++ runIndex true ttl (some ⟨c, iv.now⟩)
                (index_refresh (some e) localF iv.now iv.refreshResp iv.proxyResp).localFile
                rest := by
        rw [runIndex]
        rw [hstep, hcache]
      have hspace : e.last_check + ttl ≤ iv.now := by
        omega
      have hrest := ih ⟨c, iv.now⟩
        (index_refresh (some e) localF iv.now iv.refreshResp iv.proxyResp).localFile
        hmono.2 (fun t ht => hmono.1 t ht)
      rw [hrun, boundedTimes_append, hbt, List.singleton_append]
      constructor
      · rw [List.pairwise_cons]
        exact ⟨fun t ht => hrest.2 t ht, hrest.1⟩
      · intro t ht
        rcases List.mem_cons.mp ht with h1 | h1
        · omega
        · have h2 : iv.now + ttl ≤ t := hrest.2 t h1
          omega

/-- Keeping the builder mode of a tar builder through the archive loop. -/
theorem build_ar_headerMode (files : List ArchiveFile) :
    ∀ (ar : TarBuilder) (n v : String),
      (build_ar_from_files ar files n v).headerMode = ar.headerMode := by
  induction files with
  | nil => intro ar n v; rfl
  | cons f fs ih =>
    intro ar n v
    exact ih _ n v

/-- C1: the claim says the fallback handler returns 403 and reads no file
whenever the request path resolves outside the registry root.  The code's
guard joins the untrimmed relative path onto the root and tests
`starts_with` component-wise, which holds for every joined path, so the
handler never returns 403 (first conjunct); for `GET /../etc/passwd` the
resolved path lies outside the root (second conjunct) and the handler
reads and serves the file there anyway (third conjunct). -/
theorem C1_serve_file_guard_ineffective :
    (∀ (registry : List PathComp) (fs : List PathComp → Option String) (uriPath : String),
      isForbidden (serve_file registry fs uriPath).1 = false) ∧
    startsWithPath
        (normalizePath ([PathComp.normal "srv", PathComp.normal "registry"]
          ++ parseRelPath "../etc/passwd"))
        [PathComp.normal "srv", PathComp.normal "registry"] = false ∧
    serve_file [PathComp.normal "srv", PathComp.normal "registry"]
        (fun p =>
          if p = [PathComp.normal "srv", PathComp.normal "etc", PathComp.normal "passwd"]
          then some "root:x:0:0:root" else none)
        "/../etc/passwd"
      = (ServeFileResult.ok "root:x:0:0:root",
          [[PathComp.normal "srv", PathComp.normal "etc", PathComp.normal "passwd"]]) := by
  refine ⟨?_, by decide, by decide⟩
  intro registry fs uriPath
  simp only [serve_file, startsWithPath_append]
  rcases fs (normalizePath (registry ++ parseRelPath (trimLeadingSlashes uriPath)))
    with _ | c <;> simp [isForbidden]

/-- C2: the claim says clean-mode eviction removes exactly the files whose
crate-name component under the §4.2 parse equals the downloaded crate's
name with a different version.  Counterexample: `libc-0.2.7-alpha.1.crate`
parses (per the archive-name parser) as crate `libc` at version
`0.2.7-alpha.1`, which differs from the kept `0.2.7`, yet eviction removes
nothing, because the code splits at the rightmost dash and compares
`libc-0.2.7` against `libc`. -/
theorem C2_counterexample :
    remove_prior_versions ["libc-0.2.7-alpha.1.crate"] "libc" "0.2.7" = [] ∧
    parse_crate_filename "libc-0.2.7-alpha.1.crate" = some ("libc", "0.2.7-alpha.1") ∧
    (("0.2.7-alpha.1" : String) == "0.2.7") = false := by
  refine ⟨by decide, by decide, by decide⟩

/-- C2 (amended): eviction removes exactly the files ending in `.crate`
whose rightmost-dash split has prefix equal to the crate name and a suffix
different from the kept version; for a dash-free version the usual file is
treated correctly; and (names being dot-free) a removed file that parses
as an archive name always belongs to the evicted crate. -/
theorem C2_remove_prior_versions_amended :
    (∀ (entries : List String) (cn kv f : String),
      f ∈ remove_prior_versions entries cn kv ↔
        f ∈ entries ∧ ∃ st v, stripSuffixL f.data ".crate".data = some st ∧
          rsplitDash st = some (cn.data, v) ∧ v ≠ kv.data) ∧
    (∀ (name v ver : String), '-' ∉ v.data →
      remove_prior_versions [name ++ "-" ++ v ++ ".crate"] name ver
        = if v.data = ver.data then [] else [name ++ "-" ++ v ++ ".crate"]) ∧
    (∀ (entries : List String) (name ver f n v : String),
      (∀ c ∈ name.data, c ≠ '.') →
      f ∈ remove_prior_versions entries name ver →
      parse_crate_filename f = some (n, v) → n = name) :=
  ⟨remove_prior_versions_mem, remove_prior_versions_nodash,
    remove_prior_versions_same_crate⟩

/-- C2 (witness): evicting for `libc` keeping `0.2.7` removes
`libc-0.2.6.crate`. -/
theorem C2_witness :
    remove_prior_versions ["libc" ++ "-" ++ "0.2.6" ++ ".crate"] "libc" "0.2.7"
      = ["libc" ++ "-" ++ "0.2.6" ++ ".crate"] := by
  rw [C2_remove_prior_versions_amended.2.1 "libc" "0.2.6" "0.2.7" (by decide)]
  decide

/-- C3: the claim's universal part quantifies over every nonempty name.
Counterexample: the input `a-1.0.0-2.0.0.crate` has the form
`<name>-<vers>.crate` with nonempty name `a-1.0.0` and valid semver
version `2.0.0`, but the parser accepts the earlier split and returns
`("a", "1.0.0-2.0.0")`. -/
theorem C3_counterexample :
    semverValidL "2.0.0".data = true ∧
    "a-1.0.0".data.isEmpty = false ∧
    parse_crate_filename ("a-1.0.0" ++ "-" ++ "2.0.0" ++ ".crate")
      = some ("a", "1.0.0-2.0.0") ∧
    (some (("a-1.0.0" : String), ("2.0.0" : String))
        == parse_crate_filename ("a-1.0.0" ++ "-" ++ "2.0.0" ++ ".crate")) = false := by
  refine ⟨by decide, by decide, by decide, by decide⟩

/-- C3 (amended): the parser strips an exact `.crate` suffix and returns
the first left-to-right dash split with a valid semver suffix and nonempty
prefix; for every nonempty name containing no `.` (which covers all real
crate names) and valid semver version, it recovers `(name, vers)`; the
specific positive and negative cases from the spec hold. -/
theorem C3_parse_crate_filename_amended :
    (∀ (name vers : String), name.data ≠ [] → (∀ c ∈ name.data, c ≠ '.') →
      semverValidL vers.data = true →
      parse_crate_filename (name ++ "-" ++ vers ++ ".crate") = some (name, vers)) ∧
    parse_crate_filename "sec1-0.7.3.crate" = some ("sec1", "0.7.3") ∧
    parse_crate_filename "curl-sys-0.4.80+curl-8.12.1.crate"
      = some ("curl-sys", "0.4.80+curl-8.12.1") ∧
    parse_crate_filename "serde-1.0.130" = none ∧
    parse_crate_filename "serde.crate" = none ∧
    parse_crate_filename "-1.0.130.crate" = none ∧
    parse_crate_filename "serde-.crate" = none :=
  ⟨parse_crate_filename_recovers, by decide, by decide, by decide, by decide,
    by decide, by decide⟩

/-- C3 (witness): the universal part applied to `libc` at `0.2.7`. -/
theorem C3_witness :
    parse_crate_filename ("libc" ++ "-" ++ "0.2.7" ++ ".crate") = some ("libc", "0.2.7") :=
  C3_parse_crate_filename_amended.1 "libc" "0.2.7" (by decide) (by decide) (by decide)

/-- C4: the claim says every tar header of a synthesized archive has
mtime 0, uid 0, gid 0 and empty user/group names, so the bytes depend only
on logical content.  The code sets `Builder::mode(Deterministic)` but
builds each header with `Header::set_metadata`, which fills in `Complete`
mode; the produced header carries the file's real mtime/uid/gid (first
conjunct), so the same logical content with a different filesystem mtime
yields a different archive (second conjunct).  The third conjunct shows
the `Deterministic` fill the builder mode would have provided (mtime 0,
uid 0, gid 0), and the fourth that the configured mode survives unused on
the builder. -/
theorem C4_archive_headers_not_deterministic :
    (create_archive_task [⟨"src/lib.rs", ⟨1700000000, 1000, 1000, 420⟩, "pub fn f"⟩]
        "foo" "1.0.0").entries
      = [(⟨"foo-1.0.0/src/lib.rs", 1700000000, 1000, 1000, 420, "", ""⟩, "pub fn f")] ∧
    ((create_archive_task [⟨"src/lib.rs", ⟨1700000001, 1000, 1000, 420⟩, "pub fn f"⟩]
        "foo" "1.0.0").entries.map fun en => en.1.mtime) = [1700000001] ∧
    (∀ (h : TarHeader) (meta : FsMetadata),
      (fill_from h meta HeaderModeM.deterministic).mtime = 0 ∧
      (fill_from h meta HeaderModeM.deterministic).uid = 0 ∧
      (fill_from h meta HeaderModeM.deterministic).gid = 0) ∧
    (∀ (files : List ArchiveFile) (n v : String),
      (create_archive_task files n v).headerMode = HeaderModeM.deterministic) := by
  refine ⟨by decide, by decide, fun h meta => ⟨rfl, rfl, rfl⟩, fun files n v => ?_⟩
  exact build_ar_headerMode files _ n v

/-- C5: the claim says both index writers leave the file sorted
lexicographically with distinct `vers`.  Counterexample: the serve-side
cacher, fetching version 0.2.6 into a file already holding the 0.2.7 line
in non-clean mode, appends the new line at the end, producing a file whose
lines are not sorted. -/
theorem C5_counterexample :
    cache_specific_index_version
        (some [⟨"\x7b\"name\":\"libc\",\"vers\":\"0.2.6\",\"yanked\":false\x7d", some "0.2.6"⟩])
        (some "\x7b\"name\":\"libc\",\"vers\":\"0.2.7\",\"yanked\":false\x7d\n")
        "0.2.6" false
      = some ("\x7b\"name\":\"libc\",\"vers\":\"0.2.7\",\"yanked\":false\x7d\n"
          ++ "\x7b\"name\":\"libc\",\"vers\":\"0.2.6\",\"yanked\":false\x7d" ++ "\n") ∧
    sortedLinesB (linesOf ("\x7b\"name\":\"libc\",\"vers\":\"0.2.7\",\"yanked\":false\x7d\n"
        ++ "\x7b\"name\":\"libc\",\"vers\":\"0.2.6\",\"yanked\":false\x7d" ++ "\n").data)
      = false := by
  refine ⟨by decide, by decide⟩

/-- C5 (amended): the sync engine's `update_index_entry` leaves the file
sorted lexicographically over the serialized lines and, given a previous
file with pairwise-distinct `vers` and a new line carrying the incoming
version, pairwise-distinct `vers`; it serializes the lines joined by
newlines with no trailing newline.  The serve-side cacher does not keep
this invariant: it writes the fetched line alone under clean mode and
otherwise appends it verbatim to the existing content (skipping the write
when the version is already present), without sorting; moreover, since a
sync-written file ends without a newline (fifth conjunct), the verbatim
append glues the fetched record onto the last existing record (sixth
conjunct), leaving a single merged, malformed line where two records were
written (seventh conjunct). -/
theorem C5_index_write_amended :
    (∀ (prev : List IndexLine) (line : IndexLine) (version : String),
      List.Chain' (fun a b => lineLe a b = true) (update_index_entry prev line version)) ∧
    (∀ (prev : List IndexLine) (line : IndexLine) (version : String),
      List.Pairwise (fun a b : IndexLine => a.vers ≠ b.vers) prev →
      line.vers = version →
      List.Pairwise (fun a b : IndexLine => a.vers ≠ b.vers)
        (update_index_entry prev line version)) ∧
    (∀ (ls : List UpLine) (l : UpLine) (existing version : String),
      ls.find? (fun x => x.vers == some version) = some l →
      containsSub existing.data ("\"vers\":\"" ++ version ++ "\"").data = false →
      cache_specific_index_version (some ls) (some existing) version false
        = some (existing ++ l.text ++ "\n")) ∧
    (∀ (ls : List UpLine) (l : UpLine) (existing : Option String) (version : String),
      ls.find? (fun x => x.vers == some version) = some l →
      cache_specific_index_version (some ls) existing version true
        = some (l.text ++ "\n")) ∧
    update_index_entry_file []
        ⟨"\x7b\"name\":\"libc\",\"vers\":\"0.2.7\",\"yanked\":false\x7d", "0.2.7"⟩ "0.2.7"
      = "\x7b\"name\":\"libc\",\"vers\":\"0.2.7\",\"yanked\":false\x7d" ∧
    cache_specific_index_version
        (some [⟨"\x7b\"name\":\"libc\",\"vers\":\"0.2.6\",\"yanked\":false\x7d", some "0.2.6"⟩])
        (some "\x7b\"name\":\"libc\",\"vers\":\"0.2.7\",\"yanked\":false\x7d")
        "0.2.6" false
      = some ("\x7b\"name\":\"libc\",\"vers\":\"0.2.7\",\"yanked\":false\x7d"
          ++ "\x7b\"name\":\"libc\",\"vers\":\"0.2.6\",\"yanked\":false\x7d" ++ "\n") ∧
    linesOf ("\x7b\"name\":\"libc\",\"vers\":\"0.2.7\",\"yanked\":false\x7d"
          ++ "\x7b\"name\":\"libc\",\"vers\":\"0.2.6\",\"yanked\":false\x7d" ++ "\n").data
      = ["\x7b\"name\":\"libc\",\"vers\":\"0.2.7\",\"yanked\":false\x7d".data
          ++ "\x7b\"name\":\"libc\",\"vers\":\"0.2.6\",\"yanked\":false\x7d".data] := by
  refine ⟨update_index_entry_sorted, update_index_entry_distinct, ?_, ?_,
    by decide, by decide, by decide⟩
  · intro ls l existing version hfind hcont
    simp at hcont
    simp [cache_specific_index_version, hfind, hcont]
  · intro ls l existing version hfind
    simp [cache_specific_index_version, hfind]

/-- C5 (witness): appending version 1.0.0 to an empty file. -/
theorem C5_witness :
    cache_specific_index_version (some [⟨"x", some "1.0.0"⟩]) (some "") "1.0.0" false
      = some ("" ++ "x" ++ "\n") :=
  C5_index_write_amended.2.2.1 [⟨"x", some "1.0.0"⟩] ⟨"x", some "1.0.0"⟩ "" "1.0.0"
    (by decide) (by decide)

/-- C6: in sync phase P3, processed in P1 order, the previous contents of
an index file are used exactly when `no_delete` is set or the same index
path was written earlier in the run (first conjunct); records with a
different `vers` are retained and any record with the incoming `vers` is
replaced by the new line (second and third conjuncts); a fresh write
contains only the new record (fourth); with `no_delete=false` every file
written in the run holds only records of this run (fifth); and the
additive libc re-sync of 0.2.6 after 0.2.7 yields exactly the two lines,
sorted (sixth). -/
theorem C6_sync_phase3_keep_old :
    (∀ (nd : Bool) (fs0 : String → List IndexLine) (pre : List PkgMeta) (m : PkgMeta),
      (p3Run nd (pre ++ [m]) ⟨fs0, []⟩).fs m.index_dst
        = update_index_entry
            (if nd = true ∨ m.index_dst ∈ pre.map PkgMeta.index_dst
             then (p3Run nd pre ⟨fs0, []⟩).fs m.index_dst else [])
            m.line m.version) ∧
    (∀ (prev : List IndexLine) (line : IndexLine) (version : String) (e : IndexLine),
      e ∈ prev → e.vers ≠ version → e ∈ update_index_entry prev line version) ∧
    (∀ (prev : List IndexLine) (line : IndexLine) (version : String) (e : IndexLine),
      e ∈ update_index_entry prev line version → e.vers = version → e = line) ∧
    (∀ (line : IndexLine) (version : String), update_index_entry [] line version = [line]) ∧
    (∀ (metas : List PkgMeta) (fs0 : String → List IndexLine) (p : String),
      (p3Run false metas ⟨fs0, []⟩).added_index.contains p = true →
      ∀ e ∈ (p3Run false metas ⟨fs0, []⟩).fs p, ∃ m ∈ metas, e = m.line) ∧
    (p3Run true
        [⟨"libc-0.2.6.crate", "li/bc/libc",
          ⟨"\x7b\"name\":\"libc\",\"vers\":\"0.2.6\",\"yanked\":false\x7d", "0.2.6"⟩, "0.2.6"⟩]
        ⟨(p3Run false
            [⟨"libc-0.2.7.crate", "li/bc/libc",
              ⟨"\x7b\"name\":\"libc\",\"vers\":\"0.2.7\",\"yanked\":false\x7d", "0.2.7"⟩,
              "0.2.7"⟩]
            ⟨fun _ => [], []⟩).fs, []⟩).fs "li/bc/libc"
      = [⟨"\x7b\"name\":\"libc\",\"vers\":\"0.2.6\",\"yanked\":false\x7d", "0.2.6"⟩,
         ⟨"\x7b\"name\":\"libc\",\"vers\":\"0.2.7\",\"yanked\":false\x7d", "0.2.7"⟩] := by
  refine ⟨p3_keep_old, ?_, ?_, fun line version => rfl, ?_, by decide⟩
  · intro prev line version e he hne
    exact (update_index_entry_mem prev line version e).mpr (Or.inl ⟨he, hne⟩)
  · intro prev line version e hmem hv
    rcases (update_index_entry_mem prev line version e).mp hmem with ⟨-, hne⟩ | h
    · exact absurd hv hne
    · exact h
  · intro metas fs0 p hp e he
    exact p3Run_pure (fun x => ∃ m ∈ metas, x = m.line) metas ⟨fs0, []⟩
      (fun m hm => ⟨m, hm, rfl⟩)
      (fun q hq => absurd hq (by simp [List.contains])) p hp e he

/-- C6 (witness): a retained 0.1.0 record survives the write of 0.2.0. -/
theorem C6_witness :
    (⟨"a 0.1.0", "0.1.0"⟩ : IndexLine)
      ∈ update_index_entry [⟨"a 0.1.0", "0.1.0"⟩] ⟨"a 0.2.0", "0.2.0"⟩ "0.2.0" :=
  C6_sync_phase3_keep_old.2.1 [⟨"a 0.1.0", "0.1.0"⟩] ⟨"a 0.2.0", "0.2.0"⟩ "0.2.0"
    ⟨"a 0.1.0", "0.1.0"⟩ (by decide) (by decide)

/-- C7: the claim says the shard path has 1, 1, 2, 3 directory segments
preceding the filename for name lengths 1, 2, 3, 4+.  For a 4+ name the
shard path under `index/` is `<2 chars>/<2 chars>/<name>`: two directory
segments, not three (counting the `index/` directory itself gives three,
but then a 1-character name has two, not one).  Counterexample: `serde`. -/
theorem C7_counterexample :
    get_index_path [] "serde" = some ["index", "se", "rd", "serde"] ∧
    (["se", "rd"] : List String).length = 2 := by
  refine ⟨by decide, by decide⟩

/-- C7 (amended): for every nonempty name, the shard path under `index/`
has exactly 1, 1, 2, and 2 directory segments preceding the filename for
lengths 1, 2, 3, and 4 or more, and the final path component equals the
name; the sync engine's copy of the sharder agrees on lowercase names. -/
theorem C7_get_index_path_amended :
    (∀ name : String, name.data ≠ [] →
      ∃ dirs, get_index_path [] name = some ("index" :: (dirs ++ [name])) ∧
        dirs.length = (if name.length ≤ 2 then 1 else 2)) ∧
    (∀ (name : String) (local_dst : List String),
      name.data.map Char.toLower = name.data →
      get_index_path_main name local_dst = get_index_path local_dst name) := by
  constructor
  · intro name h
    rcases hlen : name.length with _ | _ | _ | _ | n
    · exact absurd (List.length_eq_zero.mp hlen) h
    · exact ⟨["1"], by simp [get_index_path, hlen], by simp [hlen]⟩
    · exact ⟨["2"], by simp [get_index_path, hlen], by simp [hlen]⟩
    · exact ⟨["3", String.mk (name.data.take 1)], by simp [get_index_path, hlen],
        by simp [hlen]⟩
    · refine ⟨[String.mk (name.data.take 2), String.mk ((name.data.drop 2).take 2)],
        ?_, by simp [hlen]⟩
      simp [get_index_path, hlen]
  · intro name local_dst h
    have hmk : String.mk (name.data.map Char.toLower) = name := by
      rw [h]
    simp only [get_index_path_main, hmk, h]
    rfl

/-- C7 (witness): the amended count at `serde`. -/
theorem C7_witness :
    ∃ dirs, get_index_path [] "serde" = some ("index" :: (dirs ++ ["serde"])) ∧
      dirs.length = (if ("serde" : String).length ≤ 2 then 1 else 2) :=
  C7_get_index_path_amended.1 "serde" (by decide)

/-- C8: the claim's consequence says that between two successful upstream
responses at most one upstream request falls in any window of length
`cache_ttl`.  Counterexample with `ttl = 10`: a run whose successful
responses happen at times 0 and 20 issues two upstream requests at time 10
(the failed bounded refresh and, the local file being absent, the failed
unbounded proxy fetch), both inside the window from 10 to 20. -/
theorem C8_counterexample :
    successTimes (runIndex true 10 none none
      [⟨0, some "body", none⟩, ⟨10, none, some none⟩, ⟨20, some "body2", none⟩]) = [0, 20] ∧
    requestsWithin (runIndex true 10 none none
      [⟨0, some "body", none⟩, ⟨10, none, some none⟩, ⟨20, some "body2", none⟩]) 10 20 = 2 := by
  refine ⟨by decide, by decide⟩

/-- C8 (amended): a fresh cache entry (strictly within the TTL) is served
with no upstream contact; a failed bounded refresh on an existing entry
resets its `last_check` to now; consequently, in a run that starts with a
cache entry and nondecreasing request times, bounded-refresh requests are
spaced at least `ttl` apart — so any `ttl`-length window holds at most one
bounded refresh, though a failed refresh with the local file absent adds
one unbounded proxy request in the same invocation. -/
theorem C8_index_freshness_amended :
    (∀ (ttl : Nat) (e : CachedIndex) (localFile : Option String) (now : Nat)
        (rR : Option String) (pR : Option (Option String)),
      now - e.last_check < ttl →
      serve_index_generic true ttl (some e) localFile now rR pR
        = ⟨HttpResult.ok e.content, some e, localFile, []⟩) ∧
    (∀ (ttl : Nat) (e : CachedIndex) (localFile : Option String) (now : Nat)
        (pR : Option (Option String)),
      ¬ now - e.last_check < ttl →
      (serve_index_generic true ttl (some e) localFile now none pR).cache
        = some ⟨e.content, now⟩) ∧
    (∀ (ttl : Nat) (invs : List IndexInv) (e : CachedIndex) (localF : Option String),
      List.Pairwise (fun a b => a ≤ b) (invs.map IndexInv.now) →
      (∀ t ∈ invs.map IndexInv.now, e.last_check ≤ t) →
      List.Pairwise (fun a b => a + ttl ≤ b)
        (boundedTimes (runIndex true ttl (some e) localF invs))) := by
  refine ⟨?_, ?_, ?_⟩
  · intro ttl e localFile now rR pR h
    simp [serve_index_generic, h]
  · intro ttl e localFile now pR h
    rw [serve_index_generic_stale ttl e localFile now none pR h]
    rcases localFile with _ | lf
    · rcases pR with _ | op
      · rfl
      · rcases op with _ | c2 <;> rfl
    · rfl
  · intro ttl invs e localF h1 h2
    exact (runIndex_spacing ttl invs e localF h1 h2).1

/-- C8 (witness): a fresh entry at time 9 with TTL 10 is served from
cache. -/
theorem C8_witness :
    serve_index_generic true 10 (some ⟨"cached", 5⟩) none 9 none none
      = ⟨HttpResult.ok "cached", some ⟨"cached", 5⟩, none, []⟩ :=
  C8_index_freshness_amended.1 10 ⟨"cached", 5⟩ none 9 none none (by decide)

/-- C9: every index record emitted by the sync engine — by `registry_pkg`
in the lock-file flow and by `registry_pkg_from_summary` in the
add-one-crate flow — has `yanked = Some(false)`, whatever the upstream
record's yanked flag was. -/
theorem C9_yanked_always_false :
    (∀ (pkg : PkgInput) (c : Option (Option String)),
      (registry_pkg pkg c).yanked = some false) ∧
    (∀ (s : PkgInput) (c : Option (Option String)),
      (registry_pkg_from_summary s c).yanked = some false) :=
  ⟨fun _ _ => rfl, fun _ _ => rfl⟩

/-- C10: a single-segment request path is routed to `serve_crate_file`,
and when the filename does not end in `.crate` the handler answers 404
without touching the filesystem or the upstream — so paths such as
`/config.json` at the root never reach the fallback raw-file handler. -/
theorem C10_non_crate_single_segment_404 :
    (∀ f : String, route [f] = Route.crateFile f) ∧
    (∀ (f : String) (proxy clean : Bool) (fs : String → Option String)
        (dir : List String) (dl : Option (Option String)),
      endsWithCrate f = false →
      serve_crate_file f proxy clean fs dir dl = (HttpResult.notFound, [])) := by
  constructor
  · intro f
    by_cases hf : f = "index"
    · subst hf; rfl
    · simp [route, hf]
  · intro f proxy clean fs dir dl h
    simp [serve_crate_file, h]

/-- C10 (witness): `/config.json` gets 404 from the crate-file route with
no effects. -/
theorem C10_witness :
    route ["config.json"] = Route.crateFile "config.json" ∧
    serve_crate_file "config.json" true false (fun _ => none) [] none
      = (HttpResult.notFound, []) :=
  ⟨C10_non_crate_single_segment_404.1 "config.json",
   C10_non_crate_single_segment_404.2 "config.json" true false (fun _ => none) [] none
     (by decide)⟩
